import Mathlib

/-!
# Summation handler (`main.go`)

A shallow embedding of the `EventHandler` function of `main.go` and of the
Go values it works on.

* Go's `int` is a two's-complement machine integer of 32 or 64 bits,
  depending on the platform.  A value of type `int` is modelled by the
  mathematical integer it denotes; `+` and unary `-` reduce their exact result
  back into the representable range (`wrap`).
* A Go slice is either `nil` or a finite sequence of elements.
* `for _, i := range r.Input { sum += i }` is modelled by a recursion over the
  elements of the slice that threads the local variables of the function.
* For the statements about side effects the same function is also modelled one
  level lower (`EventHandler.exec`): the slice is a header (`data`, `len`,
  `cap`) into a memory of `int` cells, the loop runs over the indices
  `0 .. len - 1`, reads the cell `data + k` at each step, and the memory is part
  of the state the function returns.
-/

namespace SumHandler

/-! ## Machine integers -/

/-- The two widths Go allows for the type `int`. -/
inductive IntSize where
  | w32
  | w64
  deriving DecidableEq, Repr

/-- Number of bits of `int`. -/
def IntSize.bits : IntSize → Nat
  | .w32 => 32
  | .w64 => 64

/-- Number of distinct values of `int`: `2 ^ bits`. -/
def modulus (sz : IntSize) : Int := 2 ^ sz.bits

/-- Smallest value of `int`: `-2 ^ (bits - 1)`. -/
def minInt (sz : IntSize) : Int := -(2 ^ (sz.bits - 1))

/-- Largest value of `int`: `2 ^ (bits - 1) - 1`. -/
def maxInt (sz : IntSize) : Int := 2 ^ (sz.bits - 1) - 1

/-- An integer is a value of type `int`. -/
def inRange (sz : IntSize) (x : Int) : Prop := minInt sz ≤ x ∧ x ≤ maxInt sz

instance (sz : IntSize) (x : Int) : Decidable (inRange sz x) := by
  unfold inRange
  exact inferInstance

/-- Two's-complement reduction of an exact result into the range of `int`. -/
def wrap (sz : IntSize) (x : Int) : Int := (x - minInt sz) % modulus sz + minInt sz

/-- Go's `a + b` on `int`. -/
def addInt (sz : IntSize) (a b : Int) : Int := wrap sz (a + b)

/-- Go's unary `-a` on `int`. -/
def negInt (sz : IntSize) (a : Int) : Int := wrap sz (-a)

/-! ## Data model -/

/-- A Go slice of `int`: `none` is the `nil` slice, `some xs` a slice with the
elements `xs` (possibly none at all). -/
abbrev IntSlice := Option (List Int)

/-- The elements a `range` loop over the slice visits, in order. -/
def IntSlice.elems : IntSlice → List Int
  | none => []
  | some xs => xs

/-- The type `Request` of `main.go`. -/
structure Request where
  Input : IntSlice
  deriving DecidableEq, Repr

/-- The type `Response` of `main.go`. -/
structure Response where
  Sum : Int
  deriving DecidableEq, Repr

/-- A Go `error` value other than `nil`. -/
structure GoError where
  msg : String
  deriving DecidableEq, Repr

/-- Every element of the request's input is a value of type `int`. -/
def Request.WellTyped (sz : IntSize) (r : Request) : Prop :=
  ∀ x ∈ r.Input.elems, inRange sz x

/-! ## The handler -/

/-- Local variables of `EventHandler`: the parameter `r` and the accumulator
`sum`. -/
structure Frame where
  r : Request
  sum : Int
  deriving DecidableEq, Repr

/-- The loop body `sum += i`. -/
def loopBody (sz : IntSize) (fr : Frame) (i : Int) : Frame :=
  { fr with sum := addInt sz fr.sum i }

/-- The loop `for _, i := range ... { sum += i }` over the remaining
elements. -/
def rangeLoop (sz : IntSize) : List Int → Frame → Frame
  | [], fr => fr
  | i :: rest, fr => rangeLoop sz rest (loopBody sz fr i)

/-- The frame of `EventHandler` when it reaches its `return`: `sum := 0`
followed by the loop over `r.Input`. -/
def EventHandler.run (sz : IntSize) (r : Request) : Frame :=
  rangeLoop sz r.Input.elems { r := r, sum := 0 }

/-- The function `EventHandler` of `main.go`: the returned pair is the
response and the error, `none` being the `nil` error. -/
def EventHandler (sz : IntSize) (r : Request) : Response × Option GoError :=
  ({ Sum := (EventHandler.run sz r).sum }, none)

/-! ## The handler over an explicit memory -/

/-- The memory of the process as the handler sees it: an `int` cell at every
address. -/
abbrev Heap := Nat → Int

/-- A Go slice value of type `[]int`: the address of its first element, its
length and its capacity. -/
structure SliceHeader where
  data : Nat
  len : Nat
  cap : Nat
  deriving DecidableEq, Repr

/-- The value of type `Request` the handler receives: its field `Input` is a
slice header, the elements live in memory. -/
structure RequestMem where
  Input : SliceHeader
  deriving DecidableEq, Repr

/-- The elements of a slice in a memory: the cells `data`, ..., `data + len - 1`. -/
def SliceHeader.cells (h : Heap) (s : SliceHeader) : List Int :=
  (List.range s.len).map (fun k => h (s.data + k))

/-- The request value a request in memory denotes; the `nil` slice is the
header with null address and length zero. -/
def RequestMem.load (h : Heap) (q : RequestMem) : Request :=
  { Input := if q.Input.data = 0 ∧ q.Input.len = 0 then none else some (q.Input.cells h) }

/-- State of a run of `EventHandler`: the memory and the local `sum`. -/
structure Machine where
  heap : Heap
  sum : Int

/-- One iteration of the loop at index `k`: `i := r.Input[k]; sum += i`. -/
def execBody (sz : IntSize) (s : SliceHeader) (m : Machine) (k : Nat) : Machine :=
  { m with sum := addInt sz m.sum (m.heap (s.data + k)) }

/-- The loop `for _, i := range r.Input { sum += i }` from index `k` on, with
`n` indices left to visit. -/
def execLoop (sz : IntSize) (s : SliceHeader) : Nat → Nat → Machine → Machine
  | 0, _, m => m
  | n + 1, k, m => execLoop sz s n (k + 1) (execBody sz s m k)

/-- The function `EventHandler` run on a memory: `sum := 0`, the loop over the
`len` indices of `r.Input`, and `return Response{Sum: sum}, nil`.  The result is
the returned pair together with the memory at the return. -/
def EventHandler.exec (sz : IntSize) (h : Heap) (q : RequestMem) :
    (Response × Option GoError) × Heap :=
  (({ Sum := (execLoop sz q.Input q.Input.len 0 { heap := h, sum := 0 }).sum }, none),
    (execLoop sz q.Input q.Input.len 0 { heap := h, sum := 0 }).heap)

/-- A memory holding `9223372036854775807, 1, -4` at the addresses `16, 17, 18`
and `55` everywhere else. -/
def heapA : Heap := fun a =>
  if a = 16 then 9223372036854775807 else if a = 17 then 1 else if a = 18 then -4 else 55

/-- A memory holding `9223372036854775807, 1, -4` at the addresses `40, 41, 42`
and `-77` everywhere else. -/
def heapB : Heap := fun a =>
  if a = 40 then 9223372036854775807 else if a = 41 then 1 else if a = 42 then -4 else -77

/-- A request whose input is the three cells of `heapA` from address `16`. -/
def requestA : RequestMem := { Input := { data := 16, len := 3, cap := 3 } }

/-- A request whose input is the three cells of `heapB` from address `40`. -/
def requestB : RequestMem := { Input := { data := 40, len := 3, cap := 8 } }

/-! ## Arithmetic of `wrap` -/

theorem modulus_pos (sz : IntSize) : 0 < modulus sz := by
  cases sz <;> simp [modulus, IntSize.bits]

theorem modulus_eq (sz : IntSize) : modulus sz = maxInt sz - minInt sz + 1 := by
  cases sz <;> simp [modulus, maxInt, minInt, IntSize.bits]

theorem wrap_inRange (sz : IntSize) (x : Int) : inRange sz (wrap sz x) := by
  have hpos := modulus_pos sz
  have h0 := Int.emod_nonneg (x - minInt sz) (ne_of_gt hpos)
  have h1 := Int.emod_lt_of_pos (x - minInt sz) hpos
  have hm := modulus_eq sz
  unfold inRange wrap
  constructor <;> omega

theorem wrap_of_inRange (sz : IntSize) (x : Int) (h : inRange sz x) : wrap sz x = x := by
  have hm := modulus_eq sz
  obtain ⟨h1, h2⟩ := h
  unfold wrap
  rw [Int.emod_eq_of_lt (by omega) (by omega)]
  omega

theorem wrap_modEq (sz : IntSize) (x : Int) : wrap sz x ≡ x [ZMOD modulus sz] := by
  unfold wrap Int.ModEq
  rw [Int.add_emod, Int.emod_emod, ← Int.add_emod]
  simp

theorem wrap_congr (sz : IntSize) {x y : Int} (h : x ≡ y [ZMOD modulus sz]) :
    wrap sz x = wrap sz y := by
  unfold wrap
  have : (x - minInt sz) % modulus sz = (y - minInt sz) % modulus sz :=
    Int.ModEq.sub_right _ h
  rw [this]

theorem wrap_add_wrap_left (sz : IntSize) (a b : Int) :
    wrap sz (wrap sz a + b) = wrap sz (a + b) :=
  wrap_congr sz (Int.ModEq.add_right _ (wrap_modEq sz a))

/-! ## The loop computes the wrapped sum -/

theorem rangeLoop_r (sz : IntSize) (xs : List Int) (fr : Frame) :
    (rangeLoop sz xs fr).r = fr.r := by
  induction xs generalizing fr with
  | nil => rfl
  | cons i rest ih => simp [rangeLoop, ih, loopBody]

theorem rangeLoop_sum (sz : IntSize) (xs : List Int) (fr : Frame) :
    wrap sz (rangeLoop sz xs fr).sum = wrap sz (fr.sum + xs.sum) := by
  induction xs generalizing fr with
  | nil => simp [rangeLoop]
  | cons i rest ih =>
    simp only [rangeLoop, ih, loopBody, addInt, List.sum_cons]
    rw [wrap_add_wrap_left, add_assoc]

theorem rangeLoop_sum_inRange (sz : IntSize) (xs : List Int) (fr : Frame)
    (h : inRange sz fr.sum) : inRange sz (rangeLoop sz xs fr).sum := by
  induction xs generalizing fr with
  | nil => simpa [rangeLoop] using h
  | cons i rest ih =>
    simp only [rangeLoop]
    exact ih _ (wrap_inRange sz _)

theorem zero_inRange (sz : IntSize) : inRange sz 0 := by
  cases sz <;> simp [inRange, minInt, maxInt, IntSize.bits]

theorem run_sum_inRange (sz : IntSize) (r : Request) :
    inRange sz (EventHandler.run sz r).sum :=
  rangeLoop_sum_inRange sz _ _ (zero_inRange sz)

theorem run_sum_eq (sz : IntSize) (r : Request) :
    (EventHandler.run sz r).sum = wrap sz r.Input.elems.sum := by
  have h : wrap sz (EventHandler.run sz r).sum = wrap sz (0 + r.Input.elems.sum) :=
    rangeLoop_sum sz r.Input.elems { r := r, sum := 0 }
  rw [wrap_of_inRange sz _ (run_sum_inRange sz r), zero_add] at h
  exact h

theorem handler_sum_eq (sz : IntSize) (r : Request) :
    (EventHandler sz r).1.Sum = wrap sz r.Input.elems.sum :=
  run_sum_eq sz r

theorem negInt_add_self (sz : IntSize) (x : Int) : wrap sz (negInt sz x + x) = 0 := by
  have h : wrap sz (negInt sz x + x) = wrap sz (-x + x) := wrap_add_wrap_left sz (-x) x
  rw [h, neg_add_cancel]
  exact wrap_of_inRange sz 0 (zero_inRange sz)

theorem wrap_add_wrap_both (sz : IntSize) (a b : Int) :
    wrap sz (wrap sz a + wrap sz b) = wrap sz (a + b) :=
  wrap_congr sz (Int.ModEq.add (wrap_modEq sz a) (wrap_modEq sz b))

/-! ## The run over a memory -/

theorem execLoop_heap (sz : IntSize) (s : SliceHeader) (n k : Nat) (m : Machine) :
    (execLoop sz s n k m).heap = m.heap := by
  induction n generalizing k m with
  | zero => rfl
  | succ n ih =>
    simp only [execLoop]
    rw [ih]
    rfl

theorem execLoop_sum (sz : IntSize) (s : SliceHeader) (n k : Nat) (m : Machine)
    (fr : Frame) (hs : fr.sum = m.sum) :
    (execLoop sz s n k m).sum
      = (rangeLoop sz ((List.range' k n).map (fun j => m.heap (s.data + j))) fr).sum := by
  induction n generalizing k m fr with
  | zero => simpa [execLoop, rangeLoop] using hs.symm
  | succ n ih =>
    simp only [execLoop, List.range'_succ, List.map_cons, rangeLoop]
    have hstep : (loopBody sz fr (m.heap (s.data + k))).sum = (execBody sz s m k).sum := by
      simp only [loopBody, execBody, hs]
    exact ih (k + 1) (execBody sz s m k) _ hstep

theorem load_elems (h : Heap) (q : RequestMem) :
    (q.load h).Input.elems = q.Input.cells h := by
  unfold RequestMem.load
  split
  · next hnil =>
    simp [IntSlice.elems, SliceHeader.cells, hnil.2]
  · rfl

theorem exec_sum (sz : IntSize) (h : Heap) (q : RequestMem) (fr : Frame) (hs : fr.sum = 0) :
    (EventHandler.exec sz h q).1.1.Sum = (rangeLoop sz (q.Input.cells h) fr).sum := by
  have := execLoop_sum sz q.Input q.Input.len 0 { heap := h, sum := 0 } fr hs
  simpa [EventHandler.exec, SliceHeader.cells, List.range_eq_range'] using this

theorem cells_congr (h₁ h₂ : Heap) (s₁ s₂ : SliceHeader) (hlen : s₁.len = s₂.len)
    (hel : ∀ k, k < s₁.len → h₁ (s₁.data + k) = h₂ (s₂.data + k)) :
    s₁.cells h₁ = s₂.cells h₂ := by
  unfold SliceHeader.cells
  rw [← hlen]
  apply List.map_congr_left
  intro k hk
  exact hel k (List.mem_range.mp hk)

/-! ## Claims -/

/-- C1 (as stated, refuted): on a 64-bit platform the well-typed input
`[9223372036854775807, 1]` has arithmetic sum `9223372036854775808`, but the
handler returns `-9223372036854775808`. -/
theorem C1_sum_not_arithmetic :
    Request.WellTyped .w64 { Input := some [9223372036854775807, 1] } ∧
    (EventHandler .w64 { Input := some [9223372036854775807, 1] }).1.Sum
      = -9223372036854775808 ∧
    (EventHandler .w64 { Input := some [9223372036854775807, 1] }).1.Sum
      ≠ ([9223372036854775807, 1] : List Int).sum := by
  refine ⟨?_, by decide, by decide⟩
  intro x hx
  simp only [IntSlice.elems, List.mem_cons, List.mem_singleton, List.not_mem_nil,
    or_false] at hx
  rcases hx with rfl | rfl <;> decide

/-- C1 (amended): for every finite sequence of integers `xs` whose arithmetic
sum is a value of the native `int` type, the handler returns a response whose
`Sum` is the arithmetic sum of `xs`. -/
theorem C1_sum_exact_of_representable (sz : IntSize) (xs : List Int)
    (h : inRange sz xs.sum) :
    (EventHandler sz { Input := some xs }).1.Sum = xs.sum := by
  rw [handler_sum_eq]
  exact wrap_of_inRange sz _ h

/-- C1 (amended), instance of the specification: `[1,2,3,4,5]` gives `15`. -/
theorem C1_sum_exact_witness :
    inRange .w64 ([1, 2, 3, 4, 5] : List Int).sum ∧
    (EventHandler .w64 { Input := some [1, 2, 3, 4, 5] }).1.Sum = 15 :=
  ⟨by decide, (C1_sum_exact_of_representable .w64 [1, 2, 3, 4, 5] (by decide)).trans (by decide)⟩

/-- C2: for every request the handler returns a response together with the
`nil` error; no input makes it report a failure. -/
theorem C2_handler_always_succeeds (sz : IntSize) (r : Request) :
    (EventHandler sz r).2 = none ∧ ∃ resp : Response, EventHandler sz r = (resp, none) :=
  ⟨rfl, ⟨_, rfl⟩⟩

/-- C3: for the empty slice and for the `nil` slice the handler returns
`Sum = 0` with the `nil` error. -/
theorem C3_empty_or_nil_input (sz : IntSize) :
    EventHandler sz { Input := some [] } = ({ Sum := 0 }, none) ∧
    EventHandler sz { Input := none } = ({ Sum := 0 }, none) :=
  ⟨rfl, rfl⟩

/-- C4: the handler's `Sum` is the same for an input sequence and for every
permutation of it, whether or not the accumulation overflows on the way. -/
theorem C4_order_independent (sz : IntSize) (xs p : List Int) (h : p.Perm xs) :
    (EventHandler sz { Input := some xs }).1.Sum
      = (EventHandler sz { Input := some p }).1.Sum := by
  rw [handler_sum_eq, handler_sum_eq]
  simp only [IntSlice.elems]
  rw [h.sum_eq]

/-- C4, instance: the accumulation over `[9223372036854775807, 1, -1]`
overflows after the second element, the one over `[1, -1, 9223372036854775807]`
never does, and both give the same `Sum`. -/
theorem C4_order_independent_witness :
    List.Perm [1, -1, 9223372036854775807] ([9223372036854775807, 1, -1] : List Int) ∧
    (EventHandler .w64 { Input := some [9223372036854775807, 1] }).1.Sum < 0 ∧
    (EventHandler .w64 { Input := some [9223372036854775807, 1, -1] }).1.Sum
      = (EventHandler .w64 { Input := some [1, -1, 9223372036854775807] }).1.Sum :=
  ⟨by decide, by decide, C4_order_independent .w64 _ _ (by decide)⟩

/-- C5: with a 64-bit `int`, the returned `Sum` is the mathematical sum of the
input reduced modulo `2^64` into `[-2^63, 2^63)`: it is congruent to the
mathematical sum modulo `2^64`, lies in that range, is given by the
two's-complement formula, and the error is `nil`. -/
theorem C5_overflow_wraps_64 (r : Request) :
    (EventHandler .w64 r).1.Sum ≡ r.Input.elems.sum [ZMOD 2 ^ 64] ∧
    -2 ^ 63 ≤ (EventHandler .w64 r).1.Sum ∧
    (EventHandler .w64 r).1.Sum < 2 ^ 63 ∧
    (EventHandler .w64 r).1.Sum = (r.Input.elems.sum + 2 ^ 63) % 2 ^ 64 - 2 ^ 63 ∧
    (EventHandler .w64 r).2 = none := by
  have hr := wrap_inRange .w64 r.Input.elems.sum
  have hm := wrap_modEq .w64 r.Input.elems.sum
  rw [handler_sum_eq]
  refine ⟨?_, ?_, ?_, ?_, rfl⟩
  · simpa [modulus, IntSize.bits] using hm
  · have := hr.1
    simpa [minInt, IntSize.bits] using this
  · have := hr.2
    simp only [maxInt, IntSize.bits] at this
    omega
  · simp only [wrap, minInt, modulus, IntSize.bits]
    norm_num
    ring_nf

/-- C7: the handler is a pure function of the elements of `r.Input`.  Run on
any two memories with any two requests whose inputs have the same length and
hold the same elements (in particular twice on equal requests), it returns equal
responses and equal errors, whatever else the memories hold and wherever the
elements lie; the error is `nil`; the memory at the return is the memory at the
call, so the elements of `r.Input` are unchanged; and the returned pair is the
one `EventHandler` gives for the request value read from the memory. -/
theorem C7_handler_pure (sz : IntSize) (h₁ h₂ : Heap) (q₁ q₂ : RequestMem)
    (hlen : q₁.Input.len = q₂.Input.len)
    (hel : ∀ k, k < q₁.Input.len → h₁ (q₁.Input.data + k) = h₂ (q₂.Input.data + k)) :
    (EventHandler.exec sz h₁ q₁).1 = (EventHandler.exec sz h₂ q₂).1 ∧
    (EventHandler.exec sz h₁ q₁).1.2 = none ∧
    (EventHandler.exec sz h₁ q₁).2 = h₁ ∧
    q₁.Input.cells (EventHandler.exec sz h₁ q₁).2 = q₁.Input.cells h₁ ∧
    (EventHandler.exec sz h₁ q₁).1 = EventHandler sz (q₁.load h₁) := by
  have hheap : (EventHandler.exec sz h₁ q₁).2 = h₁ :=
    execLoop_heap sz q₁.Input q₁.Input.len 0 { heap := h₁, sum := 0 }
  have hsum : (EventHandler.exec sz h₁ q₁).1.1.Sum = (EventHandler.exec sz h₂ q₂).1.1.Sum := by
    rw [exec_sum sz h₁ q₁ { r := { Input := none }, sum := 0 } rfl,
      exec_sum sz h₂ q₂ { r := { Input := none }, sum := 0 } rfl,
      cells_congr h₁ h₂ q₁.Input q₂.Input hlen hel]
  have hlink : (EventHandler.exec sz h₁ q₁).1.1.Sum = (EventHandler sz (q₁.load h₁)).1.Sum := by
    rw [exec_sum sz h₁ q₁ { r := q₁.load h₁, sum := 0 } rfl]
    simp only [EventHandler, EventHandler.run, load_elems]
  refine ⟨?_, rfl, hheap, by rw [hheap], ?_⟩
  · exact Prod.ext (congrArg Response.mk hsum) rfl
  · exact Prod.ext (congrArg Response.mk hlink) rfl

/-- C7, instance: `requestA` in `heapA` and `requestB` in `heapB` hold the same
three elements `9223372036854775807, 1, -4` at different addresses, in memories
that differ everywhere else; the accumulation overflows on the way; both runs
return `Sum = 9223372036854775804` with the `nil` error and leave the memory as
it was. -/
theorem C7_handler_pure_witness :
    requestA.Input.len = requestB.Input.len ∧
    (∀ k, k < requestA.Input.len →
      heapA (requestA.Input.data + k) = heapB (requestB.Input.data + k)) ∧
    heapA 0 ≠ heapB 0 ∧
    (EventHandler.exec .w64 heapA requestA).1 = ({ Sum := 9223372036854775804 }, none) ∧
    ((EventHandler.exec .w64 heapA requestA).1 = (EventHandler.exec .w64 heapB requestB).1 ∧
      (EventHandler.exec .w64 heapA requestA).1.2 = none ∧
      (EventHandler.exec .w64 heapA requestA).2 = heapA ∧
      requestA.Input.cells (EventHandler.exec .w64 heapA requestA).2
        = requestA.Input.cells heapA ∧
      (EventHandler.exec .w64 heapA requestA).1 = EventHandler .w64 (requestA.load heapA)) :=
  ⟨by decide, by decide, by decide, by decide,
    C7_handler_pure .w64 heapA heapB requestA requestB (by decide) (by decide)⟩

/-- C8: for every value `x` of type `int`, the handler applied to the
one-element input `[x]` returns `Sum = x`. -/
theorem C8_singleton (sz : IntSize) (x : Int) (h : inRange sz x) :
    (EventHandler sz { Input := some [x] }).1.Sum = x := by
  rw [handler_sum_eq]
  simp only [IntSlice.elems, List.sum_singleton]
  exact wrap_of_inRange sz x h

/-- C8, instance of the specification: `[5]` gives `5`. -/
theorem C8_singleton_witness :
    inRange .w32 5 ∧ (EventHandler .w32 { Input := some [5] }).1.Sum = 5 :=
  ⟨by decide, C8_singleton .w32 5 (by decide)⟩

/-- C9: for every value `x` of type `int`, the handler applied to `[-x, x]`,
with `-x` Go's negation, returns `Sum = 0`.  Go's `-x` is the mathematical
negation except at the minimum integer, whose negation wraps to itself; the
sum is `0` there too. -/
theorem C9_negation_cancels (sz : IntSize) (x : Int) (h : inRange sz x) :
    (x ≠ minInt sz → negInt sz x = -x) ∧
    negInt sz (minInt sz) = minInt sz ∧
    (EventHandler sz { Input := some [negInt sz x, x] }).1.Sum = 0 := by
  refine ⟨?_, ?_, ?_⟩
  · intro hx
    have hm := modulus_eq sz
    obtain ⟨h1, h2⟩ := h
    have hmm : maxInt sz = -minInt sz - 1 := by
      cases sz <;> simp [maxInt, minInt, IntSize.bits]
    exact wrap_of_inRange sz (-x) ⟨by omega, by omega⟩
  · cases sz <;> decide
  · rw [handler_sum_eq]
    simp only [IntSlice.elems, List.sum_cons, List.sum_nil, add_zero]
    exact negInt_add_self sz x

/-- C9, instance: the minimum 64-bit integer, whose negation wraps. -/
theorem C9_negation_cancels_witness :
    inRange .w64 (-9223372036854775808) ∧
    negInt .w64 (-9223372036854775808) = -9223372036854775808 ∧
    (EventHandler .w64
      { Input := some [negInt .w64 (-9223372036854775808), -9223372036854775808] }).1.Sum = 0 :=
  ⟨by decide, by decide, (C9_negation_cancels .w64 (-9223372036854775808) (by decide)).2.2⟩

/-- C11: with a 64-bit `int`, for every input sequence whose mathematical sum
lies in `[-2^63, 2^63)` the handler returns exactly that sum, whatever the
partial sums of the left-to-right accumulation do on the way. -/
theorem C11_exact_despite_partial_overflow (xs : List Int)
    (hlo : -2 ^ 63 ≤ xs.sum) (hhi : xs.sum < 2 ^ 63) :
    (EventHandler .w64 { Input := some xs }).1.Sum = xs.sum ∧
    (EventHandler .w64 { Input := some xs }).2 = none := by
  refine ⟨?_, rfl⟩
  rw [handler_sum_eq]
  simp only [IntSlice.elems]
  apply wrap_of_inRange
  constructor
  · simpa [minInt, IntSize.bits] using hlo
  · simp only [maxInt, IntSize.bits]
    omega

/-- C11, instance: in `[9223372036854775807, 1, -1]` every element is a 64-bit
integer, the partial sum after two elements has wrapped to
`-9223372036854775808`, and the handler still returns the mathematical sum
`9223372036854775807`. -/
theorem C11_exact_despite_partial_overflow_witness :
    Request.WellTyped .w64 { Input := some [9223372036854775807, 1, -1] } ∧
    -2 ^ 63 ≤ ([9223372036854775807, 1, -1] : List Int).sum ∧
    ([9223372036854775807, 1, -1] : List Int).sum < 2 ^ 63 ∧
    (rangeLoop .w64 [9223372036854775807, 1] { r := { Input := none }, sum := 0 }).sum
      = -9223372036854775808 ∧
    (EventHandler .w64 { Input := some [9223372036854775807, 1, -1] }).1.Sum
      = 9223372036854775807 := by
  refine ⟨?_, by decide, by decide, by decide, ?_⟩
  · intro x hx
    simp only [IntSlice.elems, List.mem_cons, List.mem_singleton, List.not_mem_nil,
      or_false] at hx
    rcases hx with rfl | rfl | rfl <;> decide
  · exact (C11_exact_despite_partial_overflow [9223372036854775807, 1, -1]
      (by decide) (by decide)).1.trans (by decide)

/-- C12: for all sequences `xs` and `ys`, the handler's `Sum` on `xs ++ ys` is
Go's (wrapping) sum of its `Sum` on `xs` and its `Sum` on `ys`, and its `Sum`
on the empty sequence is `0`: the handler maps concatenation to native
addition and the empty sequence to the zero of that addition. -/
theorem C12_additive_over_concat (sz : IntSize) (xs ys : List Int) :
    (EventHandler sz { Input := some (xs ++ ys) }).1.Sum
      = addInt sz (EventHandler sz { Input := some xs }).1.Sum
          (EventHandler sz { Input := some ys }).1.Sum ∧
    (EventHandler sz { Input := some [] }).1.Sum = 0 ∧
    addInt sz 0 (EventHandler sz { Input := some xs }).1.Sum
      = (EventHandler sz { Input := some xs }).1.Sum ∧
    addInt sz (EventHandler sz { Input := some xs }).1.Sum 0
      = (EventHandler sz { Input := some xs }).1.Sum := by
  have hin := wrap_inRange sz xs.sum
  refine ⟨?_, rfl, ?_, ?_⟩
  · simp only [handler_sum_eq, IntSlice.elems, addInt, List.sum_append]
    exact (wrap_add_wrap_both sz xs.sum ys.sum).symm
  · simp only [handler_sum_eq, IntSlice.elems, addInt, zero_add]
    exact wrap_of_inRange sz _ hin
  · simp only [handler_sum_eq, IntSlice.elems, addInt, add_zero]
    exact wrap_of_inRange sz _ hin

end SumHandler
